import Mathlib

/-!
Shallow embedding of the `CriticalVectors` chunk-selection pipeline
(`dracula-cv.py`): text splitting, cluster-count resolution, per-cluster
representative selection (k-means and agglomerative variants, FAISS and
in-memory backends), deduplication, and the `get_relevant_chunks`
orchestrator.  External libraries (NLTK tokenizers, the embedding model,
the clustering fit itself) are modelled as function parameters; everything
the repository's own code computes is translated directly from the source.
Machine floats are modelled by exact rationals; Euclidean distance is
modelled by squared Euclidean distance, which induces the same ordering.
-/

namespace CriticalVectors

/-! ## Python string primitives -/

/-- Python `str.isspace`-style whitespace set used by `str.strip()`
(restricted to the ASCII whitespace characters that can occur here). -/
def pyIsSpace (c : Char) : Bool :=
  c = ' ' || c = '\t' || c = '\n' || c = '\r' || c = '\x0b' || c = '\x0c'

/-- Strip leading and trailing whitespace from a character list,
modelling Python `str.strip()`. -/
def stripL (l : List Char) : List Char :=
  ((l.dropWhile pyIsSpace).reverse.dropWhile pyIsSpace).reverse

/-- Python `str.strip()` on strings. -/
def pyStrip (s : String) : String :=
  ⟨stripL s.data⟩

/-- Split a character list on the two-character separator `"\n\n"`,
modelling Python `text.split('\n\n')` (leftmost, non-overlapping
matches; empty pieces are kept).  The accumulator holds the current
piece in reverse. -/
def splitNN : List Char → List Char → List (List Char)
  | '\n' :: '\n' :: rest, acc => acc.reverse :: splitNN rest []
  | c :: rest, acc => splitNN rest (c :: acc)
  | [], acc => [acc.reverse]

/-- Python list indexing `l[i]` with negative-index wrap-around:
`l[i] = l[len l + i]` for `-len l ≤ i < 0`, out-of-range is an
`IndexError` (modelled as `none`). -/
def pyGet {α : Type} (l : List α) (i : ℤ) : Option α :=
  if 0 ≤ i then l.get? i.toNat
  else if -(l.length : ℤ) ≤ i then l.get? (i + l.length).toNat
  else none

/-- Run a fallible step over a list, failing as a whole if any step fails;
models a Python `for` loop whose body may raise or diverge. -/
def mapOpt {α β : Type} (f : α → Option β) : List α → Option (List β)
  | [] => some []
  | x :: xs =>
    match f x, mapOpt f xs with
    | some y, some ys => some (y :: ys)
    | _, _ => none

/-! ## Text splitter (`split_text`) -/

/-- Accumulator of the sentence-packing loop in `split_text`:
emitted chunks, the chunk being built, and its running token count. -/
structure SentAcc where
  chunks : List String
  current : String
  tokens : ℕ
deriving DecidableEq

/-- One iteration of the sentence-packing loop of `split_text`
(`method == 'sentences'`): greedily append the sentence while the token
budget holds, otherwise emit the stripped current chunk (if non-empty
pre-strip) and restart from this sentence. -/
def sentStep (maxTok : ℕ) (wc : String → ℕ) (a : SentAcc) (s : String) : SentAcc :=
  let n := wc s
  if a.tokens + n ≤ maxTok then
    { a with current := a.current ++ " " ++ s, tokens := a.tokens + n }
  else if a.current ≠ "" then
    { chunks := a.chunks ++ [pyStrip a.current], current := s, tokens := n }
  else
    { a with current := s, tokens := n }

/-- The `method == 'sentences'` branch of `split_text`, parametric in the
NLTK sentence list `ss` and word-token counter `wc`. -/
def splitSentences (maxTok : ℕ) (wc : String → ℕ) (ss : List String) : List String :=
  let a := ss.foldl (sentStep maxTok wc) ⟨[], "", 0⟩
  if a.current ≠ "" then a.chunks ++ [pyStrip a.current] else a.chunks

/-- Accumulator of the paragraph-packing loop in `split_text`. -/
structure ParaAcc where
  chunks : List String
  current : String
deriving DecidableEq

/-- One iteration of the paragraph-packing loop of `split_text`
(`method == 'paragraphs'`): greedily append the paragraph (with a
`"\n\n"` separator) while the character budget holds, otherwise emit the
stripped current chunk (if non-empty pre-strip) and restart. -/
def paraStep (chunkSize : ℕ) (a : ParaAcc) (p : String) : ParaAcc :=
  if a.current.length + p.length ≤ chunkSize then
    { a with current := a.current ++ "\n\n" ++ p }
  else if a.current ≠ "" then
    { chunks := a.chunks ++ [pyStrip a.current], current := p }
  else
    { a with current := p }

/-- The `method == 'paragraphs'` branch of `split_text`. -/
def splitParagraphs (chunkSize : ℕ) (text : String) : List String :=
  let paras := (splitNN text.data []).map (fun l => String.mk l)
  let a := paras.foldl (paraStep chunkSize) ⟨[], ""⟩
  if a.current ≠ "" then a.chunks ++ [pyStrip a.current] else a.chunks

/-- `CriticalVectors.split_text`: validates the text, then dispatches on
the split method; unknown methods raise only here, not at construction. -/
def split_text (chunkSize : ℕ) (sentTok : String → List String) (wc : String → ℕ)
    (method : String) (maxTok : ℕ) (text : String) : Except String (List String) :=
  if (pyStrip text).length = 0 then
    .error "text must be a non-empty string."
  else if method = "sentences" then
    .ok (splitSentences maxTok wc (sentTok text))
  else if method = "paragraphs" then
    .ok (splitParagraphs chunkSize text)
  else
    .error "Invalid method for splitting text."

/-! ## Constructor (`__init__`) -/

/-- Constructor arguments of `CriticalVectors` (the embedding model
argument is omitted: it is an external collaborator). -/
structure Args where
  chunk_size : ℤ
  strategy : String
  num_clusters : Option ℤ
  chunks_per_cluster : ℤ
  split_method : String
  max_tokens_per_chunk : ℤ
  use_faiss : Bool
deriving DecidableEq

/-- `CriticalVectors.__init__`: validates `chunk_size`, `strategy`,
`num_clusters` and `chunks_per_cluster`, in source order, and otherwise
just stores the arguments (notably `split_method` and
`max_tokens_per_chunk` are stored unvalidated). -/
def mkCriticalVectors (a : Args) : Except String Args :=
  if a.chunk_size ≤ 0 then
    .error "chunk_size must be a positive integer."
  else if a.strategy ≠ "kmeans" ∧ a.strategy ≠ "agglomerative" then
    .error "strategy must be one of the valid strategies."
  else if (match a.num_clusters with | none => false | some k => decide (k ≤ 0)) then
    .error "num_clusters must be a positive integer or auto."
  else if a.chunks_per_cluster ≤ 0 then
    .error "chunks_per_cluster must be a positive integer."
  else
    .ok a

/-! ## Cluster-count resolution (`select_chunks`, lines 173-180) -/

/-- Ceiling of the square root on naturals, the exact value of
`int(np.ceil(np.sqrt n))`. -/
def ceilSqrt (n : ℕ) : ℕ :=
  if Nat.sqrt n * Nat.sqrt n = n then Nat.sqrt n else Nat.sqrt n + 1

/-- Resolution of the configured cluster count against the chunk count:
`'auto'` (here `none`) gives `max 1 ⌈√n⌉`, an explicit count is clamped
to the number of chunks. -/
def resolveNumClusters (cfg : Option ℤ) (numChunks : ℕ) : ℤ :=
  match cfg with
  | none => max 1 (ceilSqrt numChunks : ℤ)
  | some k => min k (numChunks : ℤ)

/-! ## Distances, argsort, cluster membership

Scalars are abstracted by a linear-ordered commutative ring `K`: an
exact stand-in for the float32 arithmetic of the source (`ℚ` in
general; `ℤ` when the data is integral, which keeps concrete instances
kernel-computable).  Only the ordering of distances matters to the
algorithm, and squaring preserves the Euclidean ordering used by
`pairwise_distances` + `np.argsort` and by `IndexFlatL2`. -/

/-- Squared Euclidean distance between two vectors. -/
def sqDist {K : Type} [LinearOrderedCommRing K] (u v : List K) : K :=
  (List.zipWith (fun a b => (a - b) ^ 2) u v).sum

/-- Squared distance of embedding number `i` to a centroid. -/
def distToCentroid {K : Type} [LinearOrderedCommRing K]
    (embs : List (List K)) (c : List K) (i : ℕ) : K :=
  sqDist (embs.getD i []) c

/-- Comparison used to argsort member indices by a distance profile `d`,
with the member index as tie-break (on pairwise-distinct distances this
is the unique sorted order, independent of the library's unstable
sort). -/
def distLE {K : Type} [LinearOrder K] (d : ℕ → K) (i j : ℕ) : Prop :=
  d i < d j ∨ (d i = d j ∧ i ≤ j)

instance {K : Type} [LinearOrder K] (d : ℕ → K) : DecidableRel (distLE d) :=
  fun i j => by unfold distLE; infer_instance

/-- `sorted_indices = cluster_indices[np.argsort(distances)]`: the member
indices sorted by (squared) distance to the centroid. -/
def sortMembers {K : Type} [LinearOrder K] (d : ℕ → K) (ms : List ℕ) : List ℕ :=
  List.insertionSort (distLE d) ms

/-- `np.where(labels == cluster_idx)[0]`: the ascending list of chunk
indices carrying a given cluster label. -/
def membersOf (labels : List ℕ) (c : ℕ) : List ℕ :=
  (List.range labels.length).filter (fun i => labels.getD i 0 == c)

/-- Componentwise sum of two vectors. -/
def vecAdd (u v : List ℚ) : List ℚ :=
  List.zipWith (· + ·) u v

/-- `np.mean(cluster_embeddings, axis=0)`: the arithmetic-mean centroid
used by the agglomerative strategy (division forces rationals here). -/
def meanOf (embs : List (List ℚ)) (ms : List ℕ) : List ℚ :=
  match ms.map (fun i => embs.getD i []) with
  | [] => []
  | v :: vs => (vs.foldl vecAdd v).map (fun x => x / (ms.length : ℚ))

/-! ## Per-cluster representative selection (lines 240-250 / 290-300) -/

/-- The `while len(selected) < chunks_per_cluster and len(sorted_indices)
> len(selected)` loop, with explicit fuel: `none` models divergence
(no amount of fuel makes the loop exit), `some` models the loop
returning. Each iteration examines `sorted_indices[-len(selected)-1]`
and appends it only when not already selected. -/
def selLoop (cpc : ℕ) (sorted : List ℕ) : ℕ → List ℕ → Option (List ℕ)
  | 0, selected =>
    if selected.length < cpc ∧ selected.length < sorted.length then none
    else some selected
  | fuel + 1, selected =>
    if selected.length < cpc ∧ selected.length < sorted.length then
      let next := sorted.getD (sorted.length - selected.length - 1) 0
      selLoop cpc sorted fuel (if next ∈ selected then selected else selected ++ [next])
    else some selected

/-- Per-cluster selection on the distance-sorted member list: seed with
the closest member, add the farthest when `chunks_per_cluster > 1` and
the cluster has more than one member, then run the walk-inward loop. -/
def selectCluster (cpc fuel : ℕ) (sorted : List ℕ) : Option (List ℕ) :=
  match sorted with
  | [] => some []
  | s0 :: rest =>
    let selected :=
      if 1 < cpc ∧ 1 < (s0 :: rest).length then [s0, (s0 :: rest).getLast (by simp)]
      else [s0]
    selLoop cpc (s0 :: rest) fuel selected

/-- One iteration of the `for cluster_idx in range(num_clusters)` loop:
gather members (skipping empty clusters, the `continue`), compute the
member-to-centroid distance profile via `dF` (cluster label and member
list determine the centroid), sort by distance, and select. -/
def perClusterSelect {K : Type} [LinearOrder K] (dF : ℕ → List ℕ → ℕ → K)
    (labels : List ℕ) (cpc fuel : ℕ) (c : ℕ) : Option (List ℕ) :=
  let ms := membersOf labels c
  if ms = [] then some []
  else selectCluster cpc fuel (sortMembers (dF c ms) ms)

/-- `list(dict.fromkeys(selected_indices))`: deduplication keeping the
first occurrence of each index. -/
def pydedup {α : Type} [DecidableEq α] (l : List α) : List α :=
  l.foldl (fun acc x => if x ∈ acc then acc else acc ++ [x]) []

/-- The in-memory (non-FAISS) selection over all clusters, shared by the
k-means and agglomerative strategies (which differ only in how the
centroid, and hence the distance profile `dF`, is obtained): concatenate
per-cluster selections in ascending cluster-label order, then
deduplicate. `none` models a diverging per-cluster loop. -/
def selectIndices {K : Type} [LinearOrder K] (dF : ℕ → List ℕ → ℕ → K)
    (labels : List ℕ) (cpc fuel k : ℕ) : Option (List ℕ) :=
  (mapOpt (perClusterSelect dF labels cpc fuel) (List.range k)).map
    (fun ls => pydedup ls.flatten)

/-- `_select_chunks_kmeans` without FAISS: the centroid of cluster `c` is
`kmeans.cluster_centers_[c]`. -/
def selectIndicesKmeans {K : Type} [LinearOrderedCommRing K]
    (embs centroids : List (List K)) (labels : List ℕ)
    (cpc fuel k : ℕ) : Option (List ℕ) :=
  selectIndices (fun c _ => distToCentroid embs (centroids.getD c [])) labels cpc fuel k

/-- `_select_chunks_agglomerative`: the centroid of a cluster is the mean
of its member embeddings. -/
def selectIndicesAgglomerative (embs : List (List ℚ)) (labels : List ℕ)
    (cpc fuel k : ℕ) : Option (List ℕ) :=
  selectIndices (fun _ ms => distToCentroid embs (meanOf embs ms)) labels cpc fuel k

/-- Resolution of selected indices to chunk text,
`[chunks[idx] for idx in selected_indices]` (non-negative indices). -/
def selectChunksKmeans {K : Type} [LinearOrderedCommRing K]
    (chunks : List String) (embs centroids : List (List K))
    (labels : List ℕ) (cpc fuel k : ℕ) : Option (List String) :=
  (selectIndicesKmeans embs centroids labels cpc fuel k).bind
    (fun idxs => mapOpt (fun i => chunks.get? i) idxs)

/-! ## FAISS-backed selection (lines 204-218) -/

/-- Model of `faiss.IndexFlatL2.search(centroid, k)` for one centroid
row, per the FAISS contract: the `k` nearest stored vectors in
increasing distance order, padded with label `-1` when `k` exceeds the
number of stored vectors. -/
def searchOne {K : Type} [LinearOrderedCommRing K]
    (embs : List (List K)) (c : List K) (k : ℕ) : List ℤ :=
  ((sortMembers (distToCentroid embs c) (List.range embs.length)).take k).map Int.ofNat ++
    List.replicate (k - embs.length) (-1)

/-- `_select_chunks_kmeans` with `use_faiss=True`: for each centroid
append every neighbor label reported by the search, then deduplicate. -/
def faissSelectIndices {K : Type} [LinearOrderedCommRing K]
    (embs centroids : List (List K)) (cpc : ℕ) : List ℤ :=
  pydedup ((centroids.map (fun c => searchOne embs c cpc)).flatten)

/-- Resolution of the FAISS-path indices to chunk text; the indices are
raw `int64` labels, so Python's negative-index semantics apply. -/
def faissSelectChunks {K : Type} [LinearOrderedCommRing K]
    (chunks : List String) (embs centroids : List (List K))
    (cpc : ℕ) : Option (List String) :=
  mapOpt (pyGet chunks) (faissSelectIndices embs centroids cpc)

/-! ## Spec-side comparison definition for the reduction claim -/

/-- Modelled from the spec: the legacy "closest-to-centroid-only"
selection mode (one member per non-empty cluster, the member nearest its
cluster centroid under Euclidean distance — here the minimizer of the
distance profile, earliest index on ties), concatenated in cluster-label
order and deduplicated.  This mode is described by the spec but absent
from the source; it is the comparison definition for the reduction
property. -/
def plainSelectIndices {K : Type} [LinearOrder K] (dF : ℕ → List ℕ → ℕ → K)
    (labels : List ℕ) (k : ℕ) : List ℕ :=
  pydedup (((List.range k).map (fun c =>
    let ms := membersOf labels c
    match ms.argmin (dF c ms) with
    | none => []
    | some i => [i])).flatten)

/-! ## Orchestrator (`get_relevant_chunks`) -/

/-- `get_relevant_chunks`, parametric in the splitter, the embedding
provider, and the chunk-selection stage.  The outer `Option` models
divergence of the selection stage (`none` = the call never returns);
`Except` models raised exceptions. -/
def get_relevant_chunks (split : String → Except String (List String))
    (embed : List String → List (List ℚ))
    (selectF : List String → List (List ℚ) → Option (List String))
    (text : String) : Option (Except String (List String × String × String)) :=
  match split text with
  | .error e => some (.error e)
  | .ok chunks =>
    if chunks = [] then some (.ok ([], "", ""))
    else
      match selectF chunks (embed chunks) with
      | none => none
      | some sel => some (.ok (sel, chunks.headD "", chunks.getLastD ""))

/-! ## Helper lemmas: stripping -/

theorem all_of_all_dropWhile (p : Char → Bool) (l : List Char)
    (h : ∀ x ∈ l.dropWhile p, p x = true) : ∀ x ∈ l, p x = true := by
  intro x hx
  have := List.takeWhile_append_dropWhile p l
  rw [← this] at hx
  rcases List.mem_append.mp hx with h1 | h2
  · exact List.mem_takeWhile_imp h1
  · exact h x h2

theorem allSpace_of_allSpace_stripL (l : List Char)
    (h : ∀ c ∈ stripL l, pyIsSpace c = true) : ∀ c ∈ l, pyIsSpace c = true := by
  unfold stripL at h
  simp only [List.mem_reverse] at h
  have h2 : ∀ c ∈ (l.dropWhile pyIsSpace).reverse, pyIsSpace c = true :=
    all_of_all_dropWhile _ _ h
  simp only [List.mem_reverse] at h2
  exact all_of_all_dropWhile _ _ h2

theorem stripL_eq_nil_of_allSpace (l : List Char)
    (h : ∀ c ∈ l, pyIsSpace c = true) : stripL l = [] := by
  unfold stripL
  have h1 : l.dropWhile pyIsSpace = [] := List.dropWhile_eq_nil_iff.mpr h
  simp [h1]

/-! ## Helper lemmas: first-seen deduplication -/

theorem pydedup_go_nodup {α : Type} [DecidableEq α] (l acc : List α) (h : acc.Nodup) :
    (l.foldl (fun acc x => if x ∈ acc then acc else acc ++ [x]) acc).Nodup := by
  induction l generalizing acc with
  | nil => exact h
  | cons x xs ih =>
    simp only [List.foldl_cons]
    by_cases hx : x ∈ acc
    · simpa [hx] using ih acc h
    · have : (acc ++ [x]).Nodup := by
        simp [List.nodup_append, h, hx]
      simpa [hx] using ih (acc ++ [x]) this

theorem pydedup_go_sublist {α : Type} [DecidableEq α] (l : List α) : ∀ acc : List α,
    ∃ t, l.foldl (fun acc x => if x ∈ acc then acc else acc ++ [x]) acc = acc ++ t ∧
      t.Sublist l := by
  induction l with
  | nil => exact fun acc => ⟨[], by simp⟩
  | cons x xs ih =>
    intro acc
    by_cases hx : x ∈ acc
    · obtain ⟨t, ht, hs⟩ := ih acc
      exact ⟨t, by simpa [hx] using ht, hs.cons x⟩
    · obtain ⟨t, ht, hs⟩ := ih (acc ++ [x])
      refine ⟨x :: t, ?_, hs.cons₂ x⟩
      simpa [hx, List.append_assoc] using ht

theorem mem_pydedup_go {α : Type} [DecidableEq α] (l : List α) : ∀ (acc : List α) (y : α),
    (y ∈ l.foldl (fun acc x => if x ∈ acc then acc else acc ++ [x]) acc ↔ y ∈ acc ∨ y ∈ l) := by
  induction l with
  | nil => simp
  | cons x xs ih =>
    intro acc y
    by_cases hx : x ∈ acc
    · simp only [List.foldl_cons, if_pos hx, ih acc y, List.mem_cons]
      constructor
      · rintro (h | h)
        · exact Or.inl h
        · exact Or.inr (Or.inr h)
      · rintro (h | rfl | h)
        · exact Or.inl h
        · exact Or.inl hx
        · exact Or.inr h
    · simp only [List.foldl_cons, if_neg hx, ih (acc ++ [x]) y, List.mem_append,
        List.mem_singleton, List.mem_cons]
      tauto

theorem pydedup_nodup {α : Type} [DecidableEq α] (l : List α) : (pydedup l).Nodup :=
  pydedup_go_nodup l [] List.nodup_nil

theorem pydedup_sublist {α : Type} [DecidableEq α] (l : List α) : (pydedup l).Sublist l := by
  obtain ⟨t, ht, hs⟩ := pydedup_go_sublist l []
  simpa [pydedup, ht] using hs

theorem mem_pydedup {α : Type} [DecidableEq α] (l : List α) (y : α) :
    y ∈ pydedup l ↔ y ∈ l := by
  simpa [pydedup] using mem_pydedup_go l [] y

/-! ## Helper lemmas: option-valued loops -/

theorem mapOpt_eq_some_of_forall {α β : Type} (f : α → Option β) (g : α → β) :
    ∀ l : List α, (∀ x ∈ l, f x = some (g x)) → mapOpt f l = some (l.map g) := by
  intro l
  induction l with
  | nil => intro _; rfl
  | cons x xs ih =>
    intro h
    have hx := h x (List.mem_cons_self x xs)
    have hxs := ih (fun y hy => h y (List.mem_cons_of_mem x hy))
    simp [mapOpt, hx, hxs]

theorem exists_of_mem_mapOpt {α β : Type} (f : α → Option β) :
    ∀ (l : List α) (ys : List β), mapOpt f l = some ys →
      ∀ y ∈ ys, ∃ x ∈ l, f x = some y := by
  intro l
  induction l with
  | nil =>
    intro ys h y hy
    simp only [mapOpt] at h
    cases h
    cases hy
  | cons x xs ih =>
    intro ys h y hy
    simp only [mapOpt] at h
    cases hfx : f x with
    | none => rw [hfx] at h; cases h
    | some z =>
      rw [hfx] at h
      cases hrec : mapOpt f xs with
      | none => rw [hrec] at h; cases h
      | some zs =>
        rw [hrec] at h
        cases h
        rcases List.mem_cons.mp hy with rfl | hmem
        · exact ⟨x, List.mem_cons_self x xs, hfx⟩
        · obtain ⟨w, hw, hfw⟩ := ih zs hrec y hmem
          exact ⟨w, List.mem_cons_of_mem x hw, hfw⟩

/-! ## Helper lemmas: the walk-inward loop -/

theorem selLoop_of_not_guard (cpc : ℕ) (sorted : List ℕ) (fuel : ℕ) (sel : List ℕ)
    (h : ¬(sel.length < cpc ∧ sel.length < sorted.length)) :
    selLoop cpc sorted fuel sel = some sel := by
  cases fuel <;> simp [selLoop, h]

theorem getD_mem_of_lt {α : Type} (l : List α) (i : ℕ) (d : α) (h : i < l.length) :
    l.getD i d ∈ l := by
  rw [List.getD_eq_getElem?_getD, List.getElem?_eq_getElem h]
  exact List.getElem_mem h

theorem selLoop_subset (cpc : ℕ) (sorted : List ℕ) :
    ∀ (fuel : ℕ) (sel sel' : List ℕ), selLoop cpc sorted fuel sel = some sel' →
      ∀ x ∈ sel', x ∈ sel ∨ x ∈ sorted := by
  intro fuel
  induction fuel with
  | zero =>
    intro sel sel' h x hx
    simp only [selLoop] at h
    split at h
    · cases h
    · cases h; exact Or.inl hx
  | succ n ih =>
    intro sel sel' h x hx
    simp only [selLoop] at h
    split at h
    case isTrue hguard =>
      set next := sorted.getD (sorted.length - sel.length - 1) 0 with hnext
      have hmem : next ∈ sorted := by
        apply getD_mem_of_lt
        omega
      by_cases hin : next ∈ sel
      · rw [if_pos hin] at h
        exact ih sel sel' h x hx
      · rw [if_neg hin] at h
        rcases ih (sel ++ [next]) sel' h x hx with hl | hr
        · rcases List.mem_append.mp hl with h1 | h2
          · exact Or.inl h1
          · rw [List.mem_singleton] at h2
            subst h2
            exact Or.inr hmem
        · exact Or.inr hr
    case isFalse =>
      cases h
      exact Or.inl hx

theorem selectCluster_subset (cpc fuel : ℕ) (sorted sel : List ℕ)
    (h : selectCluster cpc fuel sorted = some sel) : ∀ x ∈ sel, x ∈ sorted := by
  intro x hx
  cases sorted with
  | nil =>
    simp only [selectCluster] at h
    cases h
    cases hx
  | cons s0 rest =>
    simp only [selectCluster] at h
    rcases selLoop_subset cpc (s0 :: rest) fuel _ sel h x hx with hl | hr
    · split at hl
      · rcases List.mem_cons.mp hl with rfl | hl2
        · exact List.mem_cons_self _ _
        · rw [List.mem_singleton] at hl2
          subst hl2
          exact List.getLast_mem _
      · rw [List.mem_singleton] at hl
        subst hl
        exact List.mem_cons_self _ _
    · exact hr

/-- When the quota is at least three and the distance-sorted cluster has
exactly three members, the walk-inward loop is stuck at the state
reached right after seeding with the closest and farthest members: the
candidate `sorted_indices[-3]` is the already-selected closest member,
so no fuel suffices. -/
theorem selLoop_stuck_three (cpc : ℕ) (s0 s1 s2 : ℕ) (h3 : 3 ≤ cpc) :
    ∀ fuel : ℕ, selLoop cpc [s0, s1, s2] fuel [s0, s2] = none := by
  intro fuel
  induction fuel with
  | zero =>
    simp only [selLoop]
    rw [if_pos]
    simp only [List.length_cons, List.length_nil]
    omega
  | succ n ih =>
    simp only [selLoop]
    rw [if_pos]
    · have hnext : [s0, s1, s2].getD ([s0, s1, s2].length - [s0, s2].length - 1) 0 = s0 := by
        rfl
      rw [hnext, if_pos (List.mem_cons_self s0 [s2])]
      exact ih
    · simp only [List.length_cons, List.length_nil]
      omega

/-! ## Helper lemmas: cluster membership -/

theorem lt_of_mem_membersOf (labels : List ℕ) (c i : ℕ) (h : i ∈ membersOf labels c) :
    i < labels.length := by
  unfold membersOf at h
  exact List.mem_range.mp (List.mem_filter.mp h).1

theorem getD_replicate_self {α : Type} (a : α) : ∀ (n i : ℕ), (List.replicate n a).getD i a = a := by
  intro n
  induction n with
  | zero => intro i; cases i <;> rfl
  | succ m ih =>
    intro i
    cases i with
    | zero => rfl
    | succ j =>
      rw [List.replicate_succ, List.getD_cons_succ]
      exact ih j

theorem membersOf_replicate_zero (n : ℕ) :
    membersOf (List.replicate n 0) 0 = List.range n := by
  unfold membersOf
  rw [List.length_replicate]
  apply List.filter_eq_self.mpr
  intro i _
  simp [getD_replicate_self]

/-! ## Helper lemmas: the distance sort -/

instance distLE_total {K : Type} [LinearOrder K] (d : ℕ → K) : IsTotal ℕ (distLE d) := by
  constructor
  intro i j
  unfold distLE
  rcases lt_trichotomy (d i) (d j) with h | h | h
  · exact Or.inl (Or.inl h)
  · rcases le_total i j with hij | hij
    · exact Or.inl (Or.inr ⟨h, hij⟩)
    · exact Or.inr (Or.inr ⟨h.symm, hij⟩)
  · exact Or.inr (Or.inl h)

instance distLE_trans {K : Type} [LinearOrder K] (d : ℕ → K) : IsTrans ℕ (distLE d) := by
  constructor
  intro i j m hij hjm
  unfold distLE at *
  rcases hij with h1 | ⟨h1, h1'⟩ <;> rcases hjm with h2 | ⟨h2, h2'⟩
  · exact Or.inl (h1.trans h2)
  · exact Or.inl (h2 ▸ h1)
  · exact Or.inl (h1 ▸ h2)
  · exact Or.inr ⟨h1.trans h2, h1'.trans h2'⟩

theorem head_sortMembers_argmin {K : Type} [LinearOrder K] (d : ℕ → K) (ms : List ℕ)
    (hdist : ms.Pairwise (fun i j => d i ≠ d j))
    (i : ℕ) (rest : List ℕ) (h : sortMembers d ms = i :: rest) :
    ms.argmin d = some i := by
  have hperm : (i :: rest).Perm ms := by
    rw [← h]
    exact List.perm_insertionSort _ ms
  have hims : i ∈ ms := hperm.mem_iff.mp (List.mem_cons_self _ _)
  have hsorted : List.Sorted (distLE d) (i :: rest) := by
    rw [← h]
    exact List.sorted_insertionSort _ ms
  have hmin : ∀ a ∈ ms, d i ≤ d a := by
    intro a ha
    rcases List.mem_cons.mp (hperm.mem_iff.mpr ha) with rfl | har
    · exact le_refl _
    · rcases (List.sorted_cons.mp hsorted).1 a har with hlt | ⟨heq, _⟩
      · exact le_of_lt hlt
      · exact le_of_eq heq
  rw [List.argmin_eq_some_iff]
  refine ⟨hims, hmin, ?_⟩
  intro a ha hle
  by_cases hai : a = i
  · subst hai
    exact le_refl _
  · have hne : d a ≠ d i := hdist.forall (fun x y hxy => hxy.symm) ha hims hai
    exact absurd (le_antisymm hle (hmin a ha)) hne

theorem sortMembers_ne_nil {K : Type} [LinearOrder K] (d : ℕ → K) (ms : List ℕ)
    (h : ms ≠ []) : sortMembers d ms ≠ [] := by
  intro hcon
  have := (List.perm_insertionSort (distLE d) ms).length_eq
  rw [show List.insertionSort (distLE d) ms = sortMembers d ms from rfl, hcon] at this
  exact h (List.length_eq_zero.mp this.symm)

theorem selectCluster_one (fuel : ℕ) (s0 : ℕ) (rest : List ℕ) :
    selectCluster 1 fuel (s0 :: rest) = some [s0] := by
  simp only [selectCluster]
  rw [if_neg (by omega)]
  exact selLoop_of_not_guard 1 _ fuel [s0] (by simp)

/-! ## Helper lemmas: ceiling square root -/

theorem ceilSqrt_pos (n : ℕ) (hn : 1 ≤ n) : 1 ≤ ceilSqrt n := by
  unfold ceilSqrt
  split
  · exact Nat.sqrt_pos.mpr hn
  · omega

theorem le_sq_ceilSqrt (n : ℕ) : n ≤ ceilSqrt n ^ 2 := by
  unfold ceilSqrt
  split
  case isTrue h => nlinarith [h]
  case isFalse h => exact le_of_lt (Nat.lt_succ_sqrt' n)

theorem sq_pred_ceilSqrt_lt (n : ℕ) (hn : 1 ≤ n) : (ceilSqrt n - 1) ^ 2 < n := by
  unfold ceilSqrt
  split
  case isTrue h =>
    have hs : 1 ≤ Nat.sqrt n := Nat.sqrt_pos.mpr hn
    have : (Nat.sqrt n - 1) ^ 2 < Nat.sqrt n ^ 2 :=
      Nat.pow_lt_pow_left (by omega) (by omega)
    nlinarith [this, h]
  case isFalse h =>
    have h1 : Nat.sqrt n ^ 2 ≤ n := Nat.sqrt_le' n
    have h2 : Nat.sqrt n ^ 2 ≠ n := by
      intro hcon
      exact h (by nlinarith [hcon])
    simpa using lt_of_le_of_ne h1 h2

theorem ceilSqrt_le (n : ℕ) (hn : 1 ≤ n) : ceilSqrt n ≤ n := by
  unfold ceilSqrt
  split
  case isTrue _ => exact Nat.sqrt_le_self n
  case isFalse h =>
    rcases Nat.lt_or_ge n 2 with h2 | h2
    · interval_cases n
      · simp [Nat.sqrt_one] at h
    · exact Nat.sqrt_lt_self h2

/-! ## Claim theorems -/

/-- C1 (code_bug): the per-cluster walk-inward selection loop does NOT
always terminate.  On a cluster whose distance-sorted member list has
exactly three members and a quota `chunks_per_cluster ≥ 3`, the loop
diverges: after seeding with the closest and farthest members the
candidate `sorted_indices[-len(selected)-1]` is the already-selected
closest member, so `selected` never grows, the quota is never met, and
the members are never exhausted — `none` for every amount of fuel. -/
theorem selectCluster_diverges (cpc fuel s0 s1 s2 : ℕ) (h : 3 ≤ cpc) :
    selectCluster cpc fuel [s0, s1, s2] = none := by
  simp only [selectCluster]
  rw [if_pos (by refine ⟨by omega, by simp⟩)]
  have hlast : ([s0, s1, s2] : List ℕ).getLast (by simp) = s2 := rfl
  rw [hlast]
  exact selLoop_stuck_three cpc s0 s1 s2 h fuel

/-- Witness for C1's divergence theorem at quota 3 and cluster `[0,1,2]`. -/
theorem selectCluster_diverges_witness : selectCluster 3 7 [0, 1, 2] = none :=
  selectCluster_diverges 3 7 0 1 2 (by norm_num)

/-- C6 (confirmed): for a non-empty chunk list of length `n` and a valid
configured count, the resolved cluster count is `max 1 ⌈√n⌉` in `'auto'`
mode (characterised exactly by `(c-1)² < n ≤ c²`), is `min cfg n`
otherwise, and in both cases lies in `[1, n]`. -/
theorem resolveNumClusters_spec (cfg : Option ℤ) (n : ℕ) (hn : 1 ≤ n)
    (hcfg : ∀ k, cfg = some k → 1 ≤ k) :
    (1 ≤ resolveNumClusters cfg n ∧ resolveNumClusters cfg n ≤ (n : ℤ)) ∧
    (cfg = none →
      (resolveNumClusters none n - 1) ^ 2 < (n : ℤ) ∧
        (n : ℤ) ≤ resolveNumClusters none n ^ 2) ∧
    (∀ k, cfg = some k → resolveNumClusters cfg n = min k (n : ℤ)) := by
  have hc1 : 1 ≤ ceilSqrt n := ceilSqrt_pos n hn
  have hcle : ceilSqrt n ≤ n := ceilSqrt_le n hn
  have hauto : resolveNumClusters none n = (ceilSqrt n : ℤ) := by
    show max 1 ((ceilSqrt n : ℤ)) = (ceilSqrt n : ℤ)
    exact max_eq_right (by exact_mod_cast hc1)
  refine ⟨?_, ?_, ?_⟩
  · cases cfg with
    | none =>
      rw [hauto]
      exact ⟨by exact_mod_cast hc1, by exact_mod_cast hcle⟩
    | some k =>
      have hk := hcfg k rfl
      unfold resolveNumClusters
      constructor
      · exact le_min hk (by exact_mod_cast hn)
      · exact min_le_right _ _
  · intro _
    rw [hauto]
    constructor
    · have := sq_pred_ceilSqrt_lt n hn
      have hcast : ((ceilSqrt n : ℤ) - 1) ^ 2 = ((ceilSqrt n - 1 : ℕ) : ℤ) ^ 2 := by
        rw [Nat.cast_sub hc1]
        norm_num
      rw [hcast]
      exact_mod_cast this
    · exact_mod_cast le_sq_ceilSqrt n
  · intro k hk
    subst hk
    rfl

/-- Witness for the cluster-count resolution theorem, at `n = 3` chunks
in `'auto'` mode (resolving to 2) and at configured count 9 (clamped). -/
theorem resolveNumClusters_spec_witness :
    ((1 ≤ resolveNumClusters none 3 ∧ resolveNumClusters none 3 ≤ (3 : ℤ)) ∧
      (resolveNumClusters none 3 - 1) ^ 2 < (3 : ℤ) ∧
        (3 : ℤ) ≤ resolveNumClusters none 3 ^ 2) ∧
    resolveNumClusters (some 9) 4 = min 9 (4 : ℤ) := by
  have h3 := resolveNumClusters_spec none 3 (by norm_num) (by intro k hk; cases hk)
  have h4 := resolveNumClusters_spec (some 9) 4 (by norm_num)
    (by intro k hk; cases hk; norm_num)
  exact ⟨⟨h3.1, h3.2.1 rfl⟩, h4.2.2 9 rfl⟩

/-- C9 (corrected): the constructor validates exactly `chunk_size`,
`strategy`, `num_clusters` and `chunks_per_cluster`; it succeeds if and
only if those four are valid, regardless of `split_method` and
`max_tokens_per_chunk` (which are stored unvalidated). -/
theorem mkCriticalVectors_ok_iff (a : Args) :
    mkCriticalVectors a = .ok a ↔
      (0 < a.chunk_size ∧ (a.strategy = "kmeans" ∨ a.strategy = "agglomerative") ∧
        (∀ k, a.num_clusters = some k → 0 < k) ∧ 0 < a.chunks_per_cluster) := by
  cases hnc : a.num_clusters with
  | none =>
    simp only [mkCriticalVectors, hnc]
    split_ifs with h1 h2 h3 h4
    · refine ⟨False.elim, fun h => ?_⟩
      obtain ⟨hcs, -, -, -⟩ := h
      omega
    · refine ⟨False.elim, fun h => ?_⟩
      rcases h.2.1 with hs | hs
      · exact absurd hs h2.1
      · exact absurd hs h2.2
    · exact h3.elim
    · refine ⟨False.elim, fun h => ?_⟩
      obtain ⟨-, -, -, hcpc⟩ := h
      omega
    · refine ⟨fun _ => ⟨by omega, ?_, fun k hk => hk.elim, by omega⟩, fun _ => rfl⟩
      by_cases hk : a.strategy = "kmeans"
      · exact Or.inl hk
      · exact Or.inr (by tauto)
  | some m =>
    simp only [mkCriticalVectors, hnc, decide_eq_true_eq]
    split_ifs with h1 h2 h3 h4
    · refine ⟨False.elim, fun h => ?_⟩
      obtain ⟨hcs, -, -, -⟩ := h
      omega
    · refine ⟨False.elim, fun h => ?_⟩
      rcases h.2.1 with hs | hs
      · exact absurd hs h2.1
      · exact absurd hs h2.2
    · refine ⟨False.elim, fun h => ?_⟩
      have := h.2.2.1 m rfl
      omega
    · refine ⟨False.elim, fun h => ?_⟩
      obtain ⟨-, -, -, hcpc⟩ := h
      omega
    · refine ⟨fun _ => ⟨by omega, ?_, fun k hk => ?_, by omega⟩, fun _ => rfl⟩
      · by_cases hk : a.strategy = "kmeans"
        · exact Or.inl hk
        · exact Or.inr (by tauto)
      · injection hk with hmk
        omega

/-- Witness for the constructor-validation theorem at a fully valid
argument record. -/
theorem mkCriticalVectors_ok_iff_witness :
    mkCriticalVectors ⟨500, "kmeans", some 2, 1, "sentences", 512, false⟩ =
      .ok ⟨500, "kmeans", some 2, 1, "sentences", 512, false⟩ :=
  (mkCriticalVectors_ok_iff _).mpr
    ⟨by norm_num, Or.inl rfl, by intro k hk; cases hk; norm_num, by norm_num⟩

/-- C9 counterexample: the constructor accepts an unknown `split_method`
and a non-positive `max_tokens_per_chunk` without raising; the unknown
method raises only later, when `split_text` is called. -/
theorem mkCriticalVectors_defers_split_method :
    mkCriticalVectors ⟨500, "kmeans", none, 1, "bogus", 0, false⟩ =
      .ok ⟨500, "kmeans", none, 1, "bogus", 0, false⟩ ∧
    split_text 500 (fun _ => []) (fun _ => 0) "bogus" 0 "hello" =
      .error "Invalid method for splitting text." :=
  ⟨rfl, rfl⟩

/-- C2 counterexample: with a valid configuration, calling
`get_relevant_chunks` on the empty string does not return
`([], "", "")`; `split_text` raises `text must be a non-empty string.`
instead, whatever the embedding provider and selection stage do. -/
theorem get_relevant_chunks_empty_raises :
    get_relevant_chunks (split_text 500 (fun _ => []) (fun _ => 0) "sentences" 512)
        (fun _ => []) (fun _ _ => some []) "" =
      some (.error "text must be a non-empty string.") ∧
    some (Except.error "text must be a non-empty string.") ≠
      some (.ok (([] : List String), "", "")) := by
  refine ⟨rfl, fun h => ?_⟩
  injection h with h2
  exact Except.noConfusion h2

/-- C2 (corrected): on empty or whitespace-only input,
`get_relevant_chunks` propagates the splitter's validation error rather
than returning `([], "", "")`; the `([], "", "")` return is reserved for
the (otherwise unreachable) case of a split that produces zero chunks. -/
theorem get_relevant_chunks_whitespace (chunkSize maxTok : ℕ)
    (sentTok : String → List String) (wc : String → ℕ)
    (embed : List String → List (List ℚ))
    (selectF : List String → List (List ℚ) → Option (List String))
    (method text : String) (hws : ∀ c ∈ text.data, pyIsSpace c = true) :
    get_relevant_chunks (split_text chunkSize sentTok wc method maxTok) embed selectF text =
      some (.error "text must be a non-empty string.") ∧
    ∀ (split : String → Except String (List String)) (t : String), split t = .ok [] →
      get_relevant_chunks split embed selectF t = some (.ok ([], "", "")) := by
  constructor
  · have hstrip : (pyStrip text).length = 0 := by
      have h0 : stripL text.data = [] := stripL_eq_nil_of_allSpace _ hws
      show (stripL text.data).length = 0
      rw [h0]
      rfl
    unfold get_relevant_chunks split_text
    rw [if_pos hstrip]
  · intro split t hsplit
    unfold get_relevant_chunks
    rw [hsplit]
    rfl

/-- Witness for the whitespace-input theorem at a single-space text. -/
theorem get_relevant_chunks_whitespace_witness :
    get_relevant_chunks (split_text 500 (fun _ => []) (fun _ => 0) "sentences" 512)
        (fun _ => []) (fun _ _ => some []) " " =
      some (.error "text must be a non-empty string.") :=
  (get_relevant_chunks_whitespace 500 512 (fun _ => []) (fun _ => 0) (fun _ => [])
    (fun _ _ => some []) "sentences" " " (by decide)).1

/-- C7 (confirmed): whenever `get_relevant_chunks` returns, the second
and third components are the text-order first and last chunks of the
split, for every splitter output and regardless of what the selection
stage picks. -/
theorem get_relevant_chunks_boundary
    (split : String → Except String (List String))
    (embed : List String → List (List ℚ))
    (selectF : List String → List (List ℚ) → Option (List String))
    (text : String) (chunks sel : List String) (f l : String)
    (hsplit : split text = .ok chunks) (hne : chunks ≠ [])
    (hrun : get_relevant_chunks split embed selectF text = some (.ok (sel, f, l))) :
    f = chunks.head hne ∧ l = chunks.getLast hne := by
  unfold get_relevant_chunks at hrun
  rw [hsplit] at hrun
  simp only [if_neg hne] at hrun
  cases hsel : selectF chunks (embed chunks) with
  | none => rw [hsel] at hrun; cases hrun
  | some s =>
    rw [hsel] at hrun
    injection hrun with h1
    injection h1 with h2
    rw [Prod.mk.injEq, Prod.mk.injEq] at h2
    obtain ⟨-, hf, hl⟩ := h2
    cases chunks with
    | nil => exact absurd rfl hne
    | cons c cs =>
      constructor
      · rw [← hf]
        rfl
      · rw [← hl]
        rw [List.getLastD_eq_getLast?, List.getLast?_eq_getLast _ hne]
        rfl

/-- Witness for the boundary theorem on a two-chunk split. -/
theorem get_relevant_chunks_boundary_witness :
    "a" = (["a", "b"] : List String).head (by simp) ∧
    "b" = (["a", "b"] : List String).getLast (by simp) :=
  get_relevant_chunks_boundary (fun _ => .ok ["a", "b"]) (fun _ => [])
    (fun _ _ => some []) "t" ["a", "b"] [] "a" "b" rfl (by simp) rfl

/-! ## Helper lemmas: non-blank chunks in sentence mode -/

theorem allSpace_of_stripL_eq_nil (l : List Char) (h : stripL l = []) :
    ∀ c ∈ l, pyIsSpace c = true := by
  unfold stripL at h
  rw [List.reverse_eq_nil_iff] at h
  have h2 := List.dropWhile_eq_nil_iff.mp h
  simp only [List.mem_reverse] at h2
  exact all_of_all_dropWhile _ _ h2

theorem stripL_hasNonSpace (l : List Char) (h : ∃ c ∈ l, pyIsSpace c = false) :
    ∃ c ∈ stripL l, pyIsSpace c = false := by
  by_contra hcon
  push_neg at hcon
  obtain ⟨c, hc, hcf⟩ := h
  have hall : ∀ x ∈ l, pyIsSpace x = true := by
    apply allSpace_of_allSpace_stripL
    intro x hx
    have := hcon x hx
    cases hpx : pyIsSpace x with
    | false => exact absurd hpx this
    | true => rfl
  rw [hall c hc] at hcf
  cases hcf

theorem pyStrip_ne_empty_of_hasNonSpace (s : String)
    (h : ∃ c ∈ s.data, pyIsSpace c = false) : pyStrip s ≠ "" := by
  intro hcon
  have hl : stripL s.data = [] := by
    have := congrArg String.data hcon
    exact this
  have hall := allSpace_of_stripL_eq_nil _ hl
  obtain ⟨c, hc, hcf⟩ := h
  rw [hall c hc] at hcf
  cases hcf

theorem hasNonSpace_pyStrip (s : String) (h : ∃ c ∈ s.data, pyIsSpace c = false) :
    ∃ c ∈ (pyStrip s).data, pyIsSpace c = false :=
  stripL_hasNonSpace s.data h

theorem sentFold_invariant (maxTok : ℕ) (wc : String → ℕ) :
    ∀ (ss : List String), (∀ s ∈ ss, ∃ c ∈ s.data, pyIsSpace c = false) →
    ∀ a : SentAcc,
      (a.current = "" ∨ ∃ c ∈ a.current.data, pyIsSpace c = false) →
      (∀ ch ∈ a.chunks, ∃ c ∈ ch.data, pyIsSpace c = false) →
      ((ss.foldl (sentStep maxTok wc) a).current = "" ∨
        ∃ c ∈ (ss.foldl (sentStep maxTok wc) a).current.data, pyIsSpace c = false) ∧
      ∀ ch ∈ (ss.foldl (sentStep maxTok wc) a).chunks, ∃ c ∈ ch.data, pyIsSpace c = false := by
  intro ss
  induction ss with
  | nil => exact fun _ a hcur hch => ⟨hcur, hch⟩
  | cons s rest ih =>
    intro hss a hcur hch
    have hs : ∃ c ∈ s.data, pyIsSpace c = false := hss s (List.mem_cons_self s rest)
    have hrest : ∀ x ∈ rest, ∃ c ∈ x.data, pyIsSpace c = false :=
      fun x hx => hss x (List.mem_cons_of_mem s hx)
    rw [List.foldl_cons]
    have hstep : ((sentStep maxTok wc a s).current = "" ∨
        ∃ c ∈ (sentStep maxTok wc a s).current.data, pyIsSpace c = false) ∧
        ∀ ch ∈ (sentStep maxTok wc a s).chunks, ∃ c ∈ ch.data, pyIsSpace c = false := by
      unfold sentStep
      by_cases h1 : a.tokens + wc s ≤ maxTok
      · simp only [if_pos h1]
        constructor
        · right
          obtain ⟨c, hc, hcf⟩ := hs
          exact ⟨c, by simp [String.data_append, hc], hcf⟩
        · exact hch
      · by_cases h2 : a.current = ""
        · simp only [if_neg h1, if_neg (show ¬ a.current ≠ "" by simp [h2])]
          exact ⟨Or.inr hs, hch⟩
        · simp only [if_neg h1, if_pos (show a.current ≠ "" from h2)]
          refine ⟨Or.inr hs, ?_⟩
          intro ch hchm
          rcases List.mem_append.mp hchm with hm | hm
          · exact hch ch hm
          · rw [List.mem_singleton] at hm
            subst hm
            apply hasNonSpace_pyStrip
            rcases hcur with hemp | hns
            · exact absurd hemp h2
            · exact hns
    exact ih hrest _ hstep.1 hstep.2

/-- C8 (corrected, sentence mode): provided every sentence produced by
the tokenizer contains a non-whitespace character, every chunk returned
by the sentence-bounded splitter is non-empty after trimming. -/
theorem splitSentences_no_blank_chunks (maxTok : ℕ) (wc : String → ℕ)
    (ss : List String) (hss : ∀ s ∈ ss, ∃ c ∈ s.data, pyIsSpace c = false) :
    ∀ ch ∈ splitSentences maxTok wc ss, pyStrip ch ≠ "" := by
  intro ch hch
  unfold splitSentences at hch
  have hinv := sentFold_invariant maxTok wc ss hss ⟨[], "", 0⟩ (Or.inl rfl)
    (fun c hc => absurd hc (List.not_mem_nil c))
  set a := ss.foldl (sentStep maxTok wc) ⟨[], "", 0⟩ with ha
  apply pyStrip_ne_empty_of_hasNonSpace
  by_cases hcurr : a.current = ""
  · rw [if_neg (by simp [hcurr])] at hch
    exact hinv.2 ch hch
  · rw [if_pos hcurr] at hch
    rcases List.mem_append.mp hch with hm | hm
    · exact hinv.2 ch hm
    · rw [List.mem_singleton] at hm
      subst hm
      apply hasNonSpace_pyStrip
      rcases hinv.1 with hemp | hns
      · exact absurd hemp hcurr
      · exact hns

/-- Witness for the sentence-mode no-blank-chunks theorem: the single
chunk produced from two short sentences is non-empty after trimming. -/
theorem splitSentences_no_blank_chunks_witness : pyStrip "Hi. Bye." ≠ "" :=
  splitSentences_no_blank_chunks 512 (fun s => s.length) ["Hi.", "Bye."] (by decide)
    "Hi. Bye." (by decide)

/-- C8 counterexample: in paragraph mode the guard checks the
accumulator before stripping, so a run of blank-line separators followed
by an overflowing paragraph emits an empty chunk: splitting `"\n\nab"`
with `chunk_size = 1` yields `["", "ab"]`, whose first chunk is empty
after trimming, although the input text is non-empty and valid. -/
theorem split_text_emits_blank_chunk :
    split_text 1 (fun _ => []) (fun _ => 0) "paragraphs" 512 "\n\nab" = .ok ["", "ab"] ∧
    pyStrip "" = "" :=
  ⟨rfl, rfl⟩

/-- C4 (confirmed): whenever the selection stage returns, the selected
index sequence is the first-seen deduplication of the concatenation of
the per-cluster selections taken in ascending cluster-label order; it
contains no repeated index, is an order-preserving subsequence of that
concatenation, and contains exactly its elements.  The FAISS path's
result is likewise duplicate-free. -/
theorem selectIndices_dedup_invariant :
    (∀ {K : Type} [LinearOrder K] (dF : ℕ → List ℕ → ℕ → K) (labels : List ℕ)
      (cpc fuel k : ℕ) (res : List ℕ),
      selectIndices dF labels cpc fuel k = some res →
      res.Nodup ∧ ∃ ls, mapOpt (perClusterSelect dF labels cpc fuel) (List.range k) =
        some ls ∧ res = pydedup ls.flatten ∧ res.Sublist ls.flatten ∧
        ∀ x, x ∈ res ↔ x ∈ ls.flatten) ∧
    ∀ {K : Type} [LinearOrderedCommRing K] (embs centroids : List (List K)) (cpc : ℕ),
      (faissSelectIndices embs centroids cpc).Nodup := by
  constructor
  · intro K _ dF labels cpc fuel k res h
    unfold selectIndices at h
    obtain ⟨ls, hls, hres⟩ := Option.map_eq_some'.mp h
    subst hres
    exact ⟨pydedup_nodup _, ls, hls, rfl, pydedup_sublist _, fun x => mem_pydedup _ x⟩
  · intro K _ embs centroids cpc
    exact pydedup_nodup _

/-- Witness for the deduplication theorem on a two-point, two-cluster
selection with integral embeddings `[0]` and `[5]`. -/
theorem selectIndices_dedup_invariant_witness :
    ([0, 1] : List ℕ).Nodup ∧ ∃ ls,
      mapOpt (perClusterSelect
          (fun c _ => distToCentroid [[(0 : ℤ)], [5]] ([[(0 : ℤ)], [5]].getD c [])) [0, 1] 1 3)
        (List.range 2) = some ls ∧ ([0, 1] : List ℕ) = pydedup ls.flatten ∧
      ([0, 1] : List ℕ).Sublist ls.flatten ∧ ∀ x, x ∈ ([0, 1] : List ℕ) ↔ x ∈ ls.flatten :=
  selectIndices_dedup_invariant.1
    (fun c _ => distToCentroid [[(0 : ℤ)], [5]] ([[(0 : ℤ)], [5]].getD c []))
    [0, 1] 1 3 2 [0, 1] (by decide)

/-- C5 (confirmed): with `chunks_per_cluster = 1` the diversity-extremes
selection returns exactly the closest-to-centroid-only selection: one
member per non-empty cluster, the member nearest its cluster centroid
(under the squared-Euclidean ordering), in cluster-label order.  Stated
for distance profiles without ties within a cluster, where the sorted
order — and hence the behaviour of the library's unstable sort — is
unique; `centF` covers both the k-means and the agglomerative centroid
conventions. -/
theorem selectIndices_one_eq_plain {K : Type} [LinearOrder K]
    (dF : ℕ → List ℕ → ℕ → K) (labels : List ℕ) (fuel k : ℕ)
    (hdist : ∀ c ∈ List.range k, (membersOf labels c).Pairwise
      (fun i j => dF c (membersOf labels c) i ≠ dF c (membersOf labels c) j)) :
    selectIndices dF labels 1 fuel k = some (plainSelectIndices dF labels k) := by
  unfold selectIndices plainSelectIndices
  rw [mapOpt_eq_some_of_forall (perClusterSelect dF labels 1 fuel)
    (fun c =>
      let ms := membersOf labels c
      match ms.argmin (dF c ms) with
      | none => []
      | some i => [i])
    (List.range k) ?_]
  · rfl
  · intro c hc
    unfold perClusterSelect
    by_cases hms : membersOf labels c = []
    · rw [if_pos hms]
      simp [hms]
    · rw [if_neg hms]
      cases hsort : sortMembers (dF c (membersOf labels c)) (membersOf labels c) with
      | nil => exact absurd hsort (sortMembers_ne_nil _ _ hms)
      | cons i rest =>
        rw [selectCluster_one fuel i rest]
        have hmin := head_sortMembers_argmin (dF c (membersOf labels c))
          (membersOf labels c) (hdist c hc) i rest hsort
        simp [hmin]

/-- Witness for the reduction theorem on two singleton clusters with
integral embeddings. -/
theorem selectIndices_one_eq_plain_witness :
    selectIndices (fun c _ => distToCentroid [[(0 : ℤ)], [5]] ([[(0 : ℤ)], [5]].getD c []))
        [0, 1] 1 3 2 =
      some (plainSelectIndices
        (fun c _ => distToCentroid [[(0 : ℤ)], [5]] ([[(0 : ℤ)], [5]].getD c [])) [0, 1] 2) :=
  selectIndices_one_eq_plain
    (fun c _ => distToCentroid [[(0 : ℤ)], [5]] ([[(0 : ℤ)], [5]].getD c [])) [0, 1] 3 2
    (by decide)

/-- C10 counterexample: in the FAISS path with `chunks_per_cluster`
exceeding the number of chunks, the search pads with the missing-neighbor
label `-1`, which the code appends verbatim: `-1` appears among the
selected indices, refuting `0 ≤ i` (Python's negative indexing then maps
it to the last chunk instead of raising). -/
theorem faissSelectIndices_contains_neg_one :
    (-1 : ℤ) ∈ faissSelectIndices [[(0 : ℤ)]] [[(0 : ℤ)]] 2 ∧ ¬(0 : ℤ) ≤ -1 ∧
    faissSelectChunks ["x"] [[(0 : ℤ)]] [[(0 : ℤ)]] 2 = some ["x", "x"] := by
  refine ⟨by decide, by decide, by decide⟩

/-- C10 (corrected): in the in-memory path every selected index is a
valid position below the label-array length (= number of chunks).  In
the FAISS path every reported index is either in `[0, n)` or the padding
label `-1`; resolving through Python indexing therefore still never
reads outside the chunk list (but the claimed bound `0 ≤ i` fails, see
the counterexample). -/
theorem selected_indices_in_bounds :
    (∀ {K : Type} [LinearOrder K] (dF : ℕ → List ℕ → ℕ → K) (labels : List ℕ)
      (cpc fuel k : ℕ) (res : List ℕ),
      selectIndices dF labels cpc fuel k = some res →
      ∀ i ∈ res, i < labels.length) ∧
    (∀ {K : Type} [LinearOrderedCommRing K] (embs centroids : List (List K)) (cpc : ℕ)
      (x : ℤ), x ∈ faissSelectIndices embs centroids cpc →
      (0 ≤ x ∧ x < (embs.length : ℤ)) ∨ x = -1) ∧
    ∀ {K : Type} [LinearOrderedCommRing K] (chunks : List String)
      (embs centroids : List (List K)) (cpc : ℕ) (x : ℤ),
      chunks.length = embs.length → embs ≠ [] →
      x ∈ faissSelectIndices embs centroids cpc → (pyGet chunks x).isSome = true := by
  have hfaiss : ∀ {K : Type} [LinearOrderedCommRing K]
      (embs centroids : List (List K)) (cpc : ℕ) (x : ℤ),
      x ∈ faissSelectIndices embs centroids cpc →
      (0 ≤ x ∧ x < (embs.length : ℤ)) ∨ x = -1 := by
    intro K _ embs centroids cpc x hx
    unfold faissSelectIndices at hx
    rw [mem_pydedup] at hx
    obtain ⟨row, hrow, hxrow⟩ := List.mem_flatten.mp hx
    obtain ⟨c, _, hc⟩ := List.mem_map.mp hrow
    subst hc
    unfold searchOne at hxrow
    rcases List.mem_append.mp hxrow with hm | hm
    · have hm2 := List.mem_map.mp hm
      obtain ⟨i, hi, hix⟩ := hm2
      subst hix
      have hmem : i ∈ sortMembers (distToCentroid embs c) (List.range embs.length) :=
        List.mem_of_mem_take hi
      have : i ∈ List.range embs.length :=
        (List.perm_insertionSort (distLE (distToCentroid embs c)) _).mem_iff.mp hmem
      have hlt := List.mem_range.mp this
      refine Or.inl ⟨?_, ?_⟩
      · rw [Int.ofNat_eq_natCast]
        exact Int.natCast_nonneg i
      · rw [Int.ofNat_eq_natCast]
        exact_mod_cast hlt
    · exact Or.inr (List.eq_of_mem_replicate hm)
  refine ⟨?_, hfaiss, ?_⟩
  · intro K _ dF labels cpc fuel k res h i hi
    unfold selectIndices at h
    obtain ⟨ls, hls, hres⟩ := Option.map_eq_some'.mp h
    subst hres
    rw [mem_pydedup] at hi
    obtain ⟨l, hl, hil⟩ := List.mem_flatten.mp hi
    obtain ⟨c, _, hcl⟩ := exists_of_mem_mapOpt _ _ _ hls l hl
    unfold perClusterSelect at hcl
    by_cases hms : membersOf labels c = []
    · rw [if_pos hms] at hcl
      injection hcl with hcl
      subst hcl
      cases hil
    · rw [if_neg hms] at hcl
      have hsorted := selectCluster_subset _ _ _ _ hcl i hil
      have hmem : i ∈ membersOf labels c :=
        (List.perm_insertionSort (distLE (dF c (membersOf labels c))) _).mem_iff.mp
          hsorted
      exact lt_of_mem_membersOf _ _ _ hmem
  · intro K _ chunks embs centroids cpc x hlen hne hx
    rcases hfaiss embs centroids cpc x hx with ⟨hx0, hxn⟩ | hx1
    · unfold pyGet
      rw [if_pos hx0]
      have hlt : x.toNat < chunks.length := by
        rw [hlen]
        omega
      rw [List.get?_eq_get hlt]
      rfl
    · subst hx1
      unfold pyGet
      have hnz : 0 < chunks.length := by
        rw [hlen]
        exact List.length_pos.mpr hne
      rw [if_neg (by norm_num), if_pos (by omega)]
      have hlt : ((-1 : ℤ) + chunks.length).toNat < chunks.length := by omega
      rw [List.get?_eq_get hlt]
      rfl

/-- Witness for the index-bounds theorem: the in-memory part at a
singleton cluster, and the FAISS resolution part at the padded `-1`. -/
theorem selected_indices_in_bounds_witness :
    (∀ i ∈ ([0] : List ℕ), i < ([0] : List ℕ).length) ∧
    (pyGet ["x"] (-1)).isSome = true := by
  constructor
  · exact selected_indices_in_bounds.1 (fun _ _ _ => (0 : ℤ)) [0] 1 3 1 [0] (by decide)
  · exact selected_indices_in_bounds.2.2 ["x"] [[(0 : ℤ)]] [[(0 : ℤ)]] 2 (-1) rfl
      (by decide) (by decide)

/-! ## Helper lemmas for the backend comparison -/

theorem pydedup_singleton {α : Type} [DecidableEq α] (x : α) : pydedup [x] = [x] := by
  simp [pydedup]

theorem pyGet_ofNat {α : Type} (l : List α) (i : ℕ) : pyGet l (Int.ofNat i) = l.get? i := by
  unfold pyGet
  rw [if_pos (by rw [Int.ofNat_eq_natCast]; exact Int.natCast_nonneg i)]
  rw [Int.ofNat_eq_natCast, Int.toNat_natCast]

/-- C3 counterexample: on three 1-dimensional embeddings with one
cluster, the shared centroid `[4]`, and `chunks_per_cluster = 2`, the
in-memory backend selects the closest and the farthest chunks
(`["b", "c"]`) while the FAISS backend selects the two nearest to the
centroid (`["b", "a"]`): the backend choice changes the result. -/
theorem backend_results_differ :
    selectChunksKmeans ["a", "b", "c"] [[(0 : ℤ)], [2], [10]] [[(4 : ℤ)]] [0, 0, 0] 2 9 1 =
      some ["b", "c"] ∧
    faissSelectChunks ["a", "b", "c"] [[(0 : ℤ)], [2], [10]] [[(4 : ℤ)]] 2 =
      some ["b", "a"] ∧
    (some ["b", "c"] : Option (List String)) ≠ some ["b", "a"] :=
  ⟨by decide, by decide, by decide⟩

/-- C3 (corrected): the two backends are not functionally equivalent in
general — see the counterexample, where `chunks_per_cluster = 2` makes
the FAISS backend return the nearest-2 neighbors of the centroid while
the in-memory backend returns closest-plus-farthest.  They do coincide
in the degenerate situation `chunks_per_cluster = 1` with a single
cluster holding every chunk and a shared centroid; stated for a
tie-free distance profile, under which the modelled deterministic order
is the unique distance order regardless of either library's tie
handling. -/
theorem backends_agree_single_cluster_one {K : Type} [LinearOrderedCommRing K]
    (chunks : List String) (embs : List (List K)) (c : List K) (fuel : ℕ)
    (hne : embs ≠ [])
    (hdist : (List.range embs.length).Pairwise
      (fun i j => distToCentroid embs c i ≠ distToCentroid embs c j)) :
    selectChunksKmeans chunks embs [c] (List.replicate embs.length 0) 1 fuel 1 =
      faissSelectChunks chunks embs [c] 1 := by
  have hn : embs.length ≠ 0 := fun h => hne (List.length_eq_zero.mp h)
  have hrange_ne : List.range embs.length ≠ [] := by
    intro h
    exact hn (by simpa using congrArg List.length h)
  cases hsort : sortMembers (distToCentroid embs c) (List.range embs.length) with
  | nil => exact absurd hsort (sortMembers_ne_nil _ _ hrange_ne)
  | cons i rest =>
    have hper : perClusterSelect (fun c' _ => distToCentroid embs ([c].getD c' []))
        (List.replicate embs.length 0) 1 fuel 0 = some [i] := by
      unfold perClusterSelect
      rw [membersOf_replicate_zero, if_neg hrange_ne]
      show selectCluster 1 fuel
        (sortMembers (distToCentroid embs c) (List.range embs.length)) = some [i]
      rw [hsort]
      exact selectCluster_one fuel i rest
    have hmap : mapOpt (perClusterSelect (fun c' _ => distToCentroid embs ([c].getD c' []))
        (List.replicate embs.length 0) 1 fuel) (List.range 1) = some [[i]] := by
      rw [show List.range 1 = [0] from rfl]
      unfold mapOpt
      rw [hper]
      rfl
    have hsearch : searchOne embs c 1 = [Int.ofNat i] := by
      unfold searchOne
      rw [hsort]
      simp [Nat.sub_eq_zero_of_le (Nat.one_le_iff_ne_zero.mpr hn)]
    unfold selectChunksKmeans selectIndicesKmeans selectIndices
      faissSelectChunks faissSelectIndices
    rw [hmap]
    simp only [Option.map_some', List.flatten, List.map_cons, List.map_nil, hsearch,
      List.append_nil, Option.some_bind, pydedup_singleton]
    show mapOpt (fun j => chunks.get? j) ([i] ++ []) = mapOpt (pyGet chunks) [Int.ofNat i]
    simp only [List.append_nil]
    unfold mapOpt
    rw [pyGet_ofNat]
    rfl

/-- Witness for the degenerate backend-agreement theorem on a single
one-dimensional integral embedding. -/
theorem backends_agree_single_cluster_one_witness :
    selectChunksKmeans ["a"] [[(0 : ℤ)]] [[(0 : ℤ)]]
        (List.replicate ([[(0 : ℤ)]]).length 0) 1 1 1 =
      faissSelectChunks ["a"] [[(0 : ℤ)]] [[(0 : ℤ)]] 1 :=
  backends_agree_single_cluster_one ["a"] [[(0 : ℤ)]] [(0 : ℤ)] 1 (by decide) (by decide)

end CriticalVectors
